import Mathlib

/-!
Verification of the fixed-width bit-packing codec described in the design
document of `winter-loo/devnotes`, against the packing/unpacking engine of
`src/demo/simd-bitpacking-rust/src/main.rs`.

The source file implements the concrete instance N = 8, W = 4, WORD_SIZE = 64
inline in `main`; the codec operations `pack`, `unpack` and `select_width`
with their validation are given by the design document and are modelled here
from its text. All machine arithmetic is `u64`/`u32` arithmetic, rendered on
`Nat` with explicit truncation modulo `2 ^ 64` / `2 ^ 32`.
-/

namespace BitPacking

/-- Machine word size in bits: packed words are `u64`. -/
def WORD_SIZE : Nat := 64

/-- Error taxonomy of the codec (design document section 7). -/
inductive CodecError where
  | BitWidthOverflow
  | MalformedBuffer
  | InvalidWidth
deriving DecidableEq, Repr

/-- Outcome of a fallible codec operation, mirroring a Rust result carrying a
`CodecError` on failure. -/
inductive CResult (α : Type) where
  | ok : α → CResult α
  | error : CodecError → CResult α
deriving DecidableEq, Repr

/-- Modelled from the spec: number of packed words for `n` values of width
`w`, namely `ceil(n * w / WORD_SIZE)`. -/
def wordCount (n w : Nat) : Nat := (n * w + (WORD_SIZE - 1)) / WORD_SIZE

/-- Modelled from the spec: `bit_length(0) = 0` and
`bit_length(v) = floor(log2 v) + 1` for positive `v` (section 4.1). -/
def bit_length (v : Nat) : Nat := if v = 0 then 0 else Nat.log2 v + 1

/-- Modelled from the spec: the WidthSelector — the minimum width sufficient
for every value of the block, `bit_length` of the block maximum (section 4.1). -/
def select_width (values : List Nat) : Nat := bit_length (values.foldr max 0)

/-- Modelled from the spec: one step of the pack loop (section 4.2). With
`word_index = cursor / WORD_SIZE` and `bit_offset = cursor % WORD_SIZE`, the
value shifted left by `bit_offset` (truncated to `u64`) is OR'd into
`words[word_index]`; when `bit_offset + w > WORD_SIZE` the value straddles the
boundary and its remaining high bits, shifted right by
`WORD_SIZE - bit_offset`, are OR'd into `words[word_index + 1]`. -/
def packStep (words : List Nat) (cursor w v : Nat) : List Nat :=
  let wi := cursor / WORD_SIZE
  let off := cursor % WORD_SIZE
  let words1 := words.set wi ((words.getD wi 0) ||| ((v <<< off) % 2 ^ WORD_SIZE))
  if WORD_SIZE < off + w then
    words1.set (wi + 1) ((words1.getD (wi + 1) 0) ||| (v >>> (WORD_SIZE - off)))
  else words1

/-- Modelled from the spec: the pack loop, maintaining the bit cursor and
advancing it by `w` after each value (section 4.2). -/
def packLoop : List Nat → Nat → Nat → List Nat → List Nat
  | [], _, _, words => words
  | v :: vs, w, cursor, words => packLoop vs w (cursor + w) (packStep words cursor w v)

/-- Modelled from the spec: `pack(values, W)` (sections 4.2 and 7). Width
outside `[0, WORD_SIZE]` is rejected as InvalidWidth; a value not fitting in
`W` bits is rejected as BitWidthOverflow before any word is written; `W = 0`
produces zero words; otherwise the values are OR'd into
`ceil(N * W / WORD_SIZE)` zero-initialized words. -/
def pack (values : List Nat) (w : Nat) : CResult (List Nat) :=
  if WORD_SIZE < w then .error .InvalidWidth
  else if values.any (fun v => decide (2 ^ w ≤ v)) then .error .BitWidthOverflow
  else if w = 0 then .ok []
  else .ok (packLoop values w 0 (List.replicate (wordCount values.length w) 0))

/-- Modelled from the spec: extraction of value `i` on unpack (section 4.3).
Read `words[word_index] >> bit_offset`; when the field straddles into the next
word, OR in `words[word_index + 1] << (WORD_SIZE - bit_offset)` (truncated to
`u64`); mask to the low `w` bits, with a dedicated branch for
`w = WORD_SIZE` in place of the overflowing mask `(1 << WORD_SIZE) - 1`. -/
def unpackValue (words : List Nat) (w i : Nat) : Nat :=
  let cursor := i * w
  let wi := cursor / WORD_SIZE
  let off := cursor % WORD_SIZE
  let lo := (words.getD wi 0) >>> off
  let raw := if WORD_SIZE < off + w then
    lo ||| (((words.getD (wi + 1) 0) <<< (WORD_SIZE - off)) % 2 ^ WORD_SIZE)
  else lo
  if w = WORD_SIZE then raw else raw &&& ((1 <<< w) - 1)

/-- Modelled from the spec: `unpack(words, W, N)` (sections 4.3 and 7). Width
outside `[0, WORD_SIZE]` is rejected as InvalidWidth; a word count differing
from `ceil(N * W / WORD_SIZE)` is rejected as MalformedBuffer before any read;
`W = 0` yields `N` zeros with no word reads; otherwise the `N` fields are
extracted in order. -/
def unpack (words : List Nat) (w n : Nat) : CResult (List Nat) :=
  if WORD_SIZE < w then .error .InvalidWidth
  else if words.length ≠ wordCount n w then .error .MalformedBuffer
  else if w = 0 then .ok (List.replicate n 0)
  else .ok ((List.range n).map (unpackValue words w))

/-- Sequencing of fallible codec operations. -/
def CResult.bind {α β : Type} : CResult α → (α → CResult β) → CResult β
  | .ok a, f => f a
  | .error e, _ => .error e

/-! The concrete demonstration in `src/demo/simd-bitpacking-rust/src/main.rs`,
embedded from the source. -/

/-- The block of eight values of `main` in
`src/demo/simd-bitpacking-rust/src/main.rs`. -/
def demoValues : List Nat := [3, 15, 0, 7, 1, 12, 4, 9]

/-- The bit width used by `main`. -/
def demoBitWidth : Nat := 4

/-- The packing loop of `main`: `packed |= (v as u64) << (i * bit_width)` over
the enumerated values, in `u64` arithmetic. -/
def demoPacked : Nat :=
  (List.range demoValues.length).foldl
    (fun packed i => packed ||| (((demoValues.getD i 0) <<< (i * demoBitWidth)) % 2 ^ 64)) 0

/-- The mask `(1 << bit_width) - 1` of `main`. -/
def demoMask : Nat := (1 <<< demoBitWidth) - 1

/-- The unpacking loop of `main`:
`unpacked[i] = ((packed >> (i * bit_width)) & mask) as u32`. -/
def demoUnpacked : List Nat :=
  (List.range 8).map (fun i => ((demoPacked >>> (i * demoBitWidth)) &&& demoMask) % 2 ^ 32)

/-! Mathematical helpers used to state and prove bit-placement facts. -/

/-- Value of a word list read as one natural number, word `j` contributing at
bit position `WORD_SIZE * j`. -/
def wordsVal : List Nat → Nat
  | [] => 0
  | x :: xs => x + 2 ^ WORD_SIZE * wordsVal xs

/-- Concatenation `Σ values[i] * 2 ^ (i * w)`: value `i` sits at global bit
cursor `i * w`. -/
def packSum : List Nat → Nat → Nat
  | [], _ => 0
  | v :: vs, w => v + 2 ^ w * packSum vs w

/-- Decomposition of a natural number into `L` words of `WORD_SIZE` bits each,
low words first. -/
def chunks : Nat → Nat → List Nat
  | 0, _ => []
  | L + 1, x => x % 2 ^ WORD_SIZE :: chunks L (x / 2 ^ WORD_SIZE)

/-! Basic list and arithmetic helper lemmas. -/

theorem list_eq_of_getD {l l' : List Nat} (hlen : l.length = l'.length)
    (h : ∀ j, l.getD j 0 = l'.getD j 0) : l = l' := by
  apply List.ext_getElem hlen
  intro j h1 h2
  have hj := h j
  rw [List.getD_eq_getElem?_getD, List.getD_eq_getElem?_getD,
      List.getElem?_eq_getElem h1, List.getElem?_eq_getElem h2] at hj
  simpa using hj

theorem getD_set (l : List Nat) (i j a : Nat) :
    (l.set i a).getD j 0 = if i = j ∧ i < l.length then a else l.getD j 0 := by
  simp only [List.getD_eq_getElem?_getD, List.getElem?_set]
  by_cases hij : i = j
  · subst hij
    by_cases hl : i < l.length
    · simp [hl]
    · simp [hl, List.getElem?_eq_none (Nat.le_of_not_lt hl)]
  · simp [hij]

theorem getD_eq_getElem {l : List Nat} {i : Nat} (h : i < l.length) :
    l.getD i 0 = l[i] := by
  rw [List.getD_eq_getElem?_getD, List.getElem?_eq_getElem h]
  rfl

theorem getD_map_range (l : List Nat) :
    (List.range l.length).map (fun i => l.getD i 0) = l := by
  induction l with
  | nil => rfl
  | cons x xs ih =>
    rw [List.length_cons, List.range_succ_eq_map, List.map_cons, List.map_map]
    simp only [List.getD_cons_zero]
    congr 1

theorem mod_mul_decomp (x a b : Nat) :
    x % (a * b) = x % a + a * (x / a % b) := by
  conv_lhs => rw [← Nat.mod_add_div (x % (a * b)) a]
  rw [Nat.mod_mul_right_div_self, Nat.mod_mod_of_dvd _ (dvd_mul_right a b)]

theorem lor_eq_add_of_lt {a t : Nat} (b : Nat) (ha : a < 2 ^ t) :
    a ||| 2 ^ t * b = a + 2 ^ t * b := by
  rw [Nat.lor_comm, ← Nat.mul_add_lt_is_or ha b, Nat.add_comm]

theorem add_shift_lt {S c v w : Nat} (hS : S < 2 ^ c) (hv : v < 2 ^ w) :
    S + v * 2 ^ c < 2 ^ (c + w) := by
  have hv' : v + 1 ≤ 2 ^ w := hv
  have h1 : 2 ^ c * (v + 1) ≤ 2 ^ c * 2 ^ w := Nat.mul_le_mul_left _ hv'
  have h2 : 2 ^ c * (v + 1) = v * 2 ^ c + 2 ^ c := by ring
  rw [pow_add]
  omega

/-! Lemmas about `chunks`, `wordsVal` and `packSum`. -/

theorem chunks_length (L x : Nat) : (chunks L x).length = L := by
  induction L generalizing x with
  | zero => rfl
  | succ L ih => simp [chunks, ih]

theorem chunks_zero (L : Nat) : chunks L 0 = List.replicate L 0 := by
  induction L with
  | zero => rfl
  | succ L ih => simp [chunks, ih, List.replicate_succ]

theorem chunks_getD {L x : Nat} (h : x < 2 ^ (64 * L)) (j : Nat) :
    (chunks L x).getD j 0 = x / 2 ^ (64 * j) % 2 ^ 64 := by
  induction L generalizing x j with
  | zero =>
    have hx : x = 0 := by simpa using h
    subst hx
    simp [chunks]
  | succ L ih =>
    cases j with
    | zero => simp [chunks, WORD_SIZE]
    | succ j =>
      have hx : x / 2 ^ WORD_SIZE < 2 ^ (64 * L) := by
        apply Nat.div_lt_of_lt_mul
        have he : 64 * (L + 1) = WORD_SIZE + 64 * L := by simp [WORD_SIZE]; ring
        rw [he, pow_add] at h
        exact h
      rw [chunks]
      simp only [List.getD_cons_succ]
      rw [ih hx, Nat.div_div_eq_div_mul, ← pow_add]
      have he2 : WORD_SIZE + 64 * j = 64 * (j + 1) := by simp [WORD_SIZE]; ring
      rw [he2]

theorem wordsVal_chunks {L x : Nat} (h : x < 2 ^ (64 * L)) :
    wordsVal (chunks L x) = x := by
  induction L generalizing x with
  | zero =>
    have hx : x = 0 := by simpa using h
    subst hx
    rfl
  | succ L ih =>
    have hx : x / 2 ^ WORD_SIZE < 2 ^ (64 * L) := by
      apply Nat.div_lt_of_lt_mul
      have he : 64 * (L + 1) = WORD_SIZE + 64 * L := by simp [WORD_SIZE]; ring
      rw [he, pow_add] at h
      exact h
    rw [chunks, wordsVal, ih hx, Nat.mod_add_div]

theorem packSum_lt {vs : List Nat} {w : Nat} (h : ∀ v ∈ vs, v < 2 ^ w) :
    packSum vs w < 2 ^ (vs.length * w) := by
  induction vs with
  | nil => simp [packSum]
  | cons v vs ih =>
    have hv : v < 2 ^ w := h v (by simp)
    have hs : packSum vs w < 2 ^ (vs.length * w) := ih (fun x hx => h x (by simp [hx]))
    rw [packSum, List.length_cons]
    have he : (vs.length + 1) * w = w + vs.length * w := by ring
    rw [he, pow_add]
    calc v + 2 ^ w * packSum vs w
        < 2 ^ w + 2 ^ w * packSum vs w := by omega
      _ = 2 ^ w * (packSum vs w + 1) := by ring
      _ ≤ 2 ^ w * 2 ^ (vs.length * w) := Nat.mul_le_mul_left _ hs

theorem packSum_extract {vs : List Nat} {w : Nat} (h : ∀ v ∈ vs, v < 2 ^ w) :
    ∀ i, i < vs.length → packSum vs w / 2 ^ (i * w) % 2 ^ w = vs.getD i 0 := by
  induction vs with
  | nil =>
    intro i hi
    simp at hi
  | cons v vs ih =>
    intro i hi
    cases i with
    | zero =>
      simp only [packSum, Nat.zero_mul, pow_zero, Nat.div_one, List.getD_cons_zero]
      rw [Nat.add_mul_mod_self_left]
      exact Nat.mod_eq_of_lt (h v (by simp))
    | succ i =>
      simp only [List.getD_cons_succ, packSum]
      have he : (i + 1) * w = w + i * w := by ring
      rw [he, pow_add, ← Nat.div_div_eq_div_mul,
          Nat.add_mul_div_left _ _ (Nat.two_pow_pos w),
          Nat.div_eq_of_lt (h v (by simp)), Nat.zero_add]
      exact ih (fun x hx => h x (by simp [hx])) i (by simpa using hi)

theorem packSum_reconstruct (w : Nat) : ∀ (n x : Nat),
    packSum ((List.range n).map (fun i => x / 2 ^ (i * w) % 2 ^ w)) w = x % 2 ^ (n * w) := by
  intro n
  induction n with
  | zero =>
    intro x
    simp [packSum, Nat.mod_one]
  | succ n ih =>
    intro x
    rw [List.range_succ_eq_map, List.map_cons, List.map_map, packSum]
    simp only [Nat.zero_mul, pow_zero, Nat.div_one]
    have hmap : ((fun i => x / 2 ^ (i * w) % 2 ^ w) ∘ Nat.succ)
        = fun i => (x / 2 ^ w) / 2 ^ (i * w) % 2 ^ w := by
      funext i
      simp only [Function.comp]
      rw [Nat.div_div_eq_div_mul, ← pow_add]
      have he : w + i * w = Nat.succ i * w := by rw [Nat.succ_mul]; ring
      rw [he]
    rw [hmap, ih (x / 2 ^ w)]
    have he2 : (n + 1) * w = w + n * w := by ring
    rw [he2, pow_add, mod_mul_decomp]

theorem packStep_length (words : List Nat) (c w v : Nat) :
    (packStep words c w v).length = words.length := by
  simp only [packStep]
  split <;> simp

theorem packLoop_length (vs : List Nat) (w : Nat) :
    ∀ (c : Nat) (words : List Nat), (packLoop vs w c words).length = words.length := by
  induction vs with
  | nil =>
    intro c words
    rfl
  | cons v vs ih =>
    intro c words
    rw [packLoop, ih, packStep_length]

/-- Central packing step lemma: OR-ing a value into the word buffer at bit
cursor `c` is, at the level of the concatenated bit string, addition of
`v * 2 ^ c`. -/
theorem packStep_chunks {L S c w v : Nat} (hw1 : 1 ≤ w) (hw64 : w ≤ 64)
    (hS : S < 2 ^ c) (hv : v < 2 ^ w) (hcw : c + w ≤ 64 * L) :
    packStep (chunks L S) c w v = chunks L (S + v * 2 ^ c) := by
  have hoff : c % 64 < 64 := Nat.mod_lt _ (by norm_num)
  have hc : 64 * (c / 64) + c % 64 = c := Nat.div_add_mod c 64
  have hwiL : c / 64 < L := by omega
  have hSL : S < 2 ^ (64 * L) :=
    lt_of_lt_of_le hS (Nat.pow_le_pow_right (by norm_num) (by omega))
  have hUL : S + v * 2 ^ c < 2 ^ (64 * L) :=
    lt_of_lt_of_le (add_shift_lt hS hv) (Nat.pow_le_pow_right (by norm_num) hcw)
  have hUbit : ∀ t, (S + v * 2 ^ c).testBit t =
      if t < c then S.testBit t else v.testBit (t - c) := by
    intro t
    have he : S + v * 2 ^ c = 2 ^ c * v + S := by ring
    rw [he]
    exact Nat.testBit_mul_pow_two_add v hS t
  have hSbit : ∀ t, c ≤ t → S.testBit t = false := by
    intro t ht
    exact Nat.testBit_lt_two_pow (lt_of_lt_of_le hS (Nat.pow_le_pow_right (by norm_num) ht))
  have hvbit : ∀ t, w ≤ t → v.testBit t = false := by
    intro t ht
    exact Nat.testBit_lt_two_pow (lt_of_lt_of_le hv (Nat.pow_le_pow_right (by norm_num) ht))
  have hdivbit : ∀ (x n k : Nat), (x / 2 ^ n % 2 ^ 64).testBit k
      = if k < 64 then x.testBit (n + k) else false := by
    intro x n k
    rw [Nat.testBit_mod_two_pow, ← Nat.shiftRight_eq_div_pow, Nat.testBit_shiftRight]
    by_cases hk : k < 64
    · simp [hk]
    · simp [hk]
  have eqA : ∀ j, 64 * (j + 1) ≤ c ∨ c + w ≤ 64 * j →
      S / 2 ^ (64 * j) % 2 ^ 64 = (S + v * 2 ^ c) / 2 ^ (64 * j) % 2 ^ 64 := by
    intro j hj
    apply Nat.eq_of_testBit_eq
    intro k
    rw [hdivbit, hdivbit]
    by_cases hk : k < 64
    · rw [if_pos hk, if_pos hk, hUbit]
      by_cases ht : 64 * j + k < c
      · rw [if_pos ht]
      · rw [if_neg ht]
        rcases hj with hj | hj
        · omega
        · rw [hSbit _ (by omega), hvbit _ (by omega)]
    · rw [if_neg hk, if_neg hk]
  have eqB : S / 2 ^ (64 * (c / 64)) % 2 ^ 64 ||| (v <<< (c % 64)) % 2 ^ 64
      = (S + v * 2 ^ c) / 2 ^ (64 * (c / 64)) % 2 ^ 64 := by
    apply Nat.eq_of_testBit_eq
    intro k
    rw [Nat.testBit_or, hdivbit, hdivbit, Nat.testBit_mod_two_pow, Nat.testBit_shiftLeft]
    by_cases hk : k < 64
    · rw [if_pos hk, if_pos hk, hUbit]
      by_cases hko : c % 64 ≤ k
      · have ht : ¬ (64 * (c / 64) + k < c) := by omega
        rw [if_neg ht, hSbit _ (by omega), decide_eq_true hk, decide_eq_true hko]
        simp only [Bool.true_and, Bool.false_or]
        congr 1
        omega
      · have ht : 64 * (c / 64) + k < c := by omega
        rw [if_pos ht, decide_eq_false hko]
        simp
    · rw [if_neg hk, if_neg hk, decide_eq_false hk]
      simp
  have eqC : 64 < c % 64 + w →
      S / 2 ^ (64 * (c / 64 + 1)) % 2 ^ 64 ||| v >>> (64 - c % 64)
      = (S + v * 2 ^ c) / 2 ^ (64 * (c / 64 + 1)) % 2 ^ 64 := by
    intro hstr
    apply Nat.eq_of_testBit_eq
    intro k
    rw [Nat.testBit_or, hdivbit, hdivbit, Nat.testBit_shiftRight]
    by_cases hk : k < 64
    · rw [if_pos hk, if_pos hk, hUbit]
      have ht : ¬ (64 * (c / 64 + 1) + k < c) := by omega
      rw [if_neg ht, hSbit _ (by omega)]
      simp only [Bool.false_or]
      congr 1
      omega
    · rw [if_neg hk, if_neg hk, hvbit _ (by omega)]
      simp
  apply list_eq_of_getD
  · rw [packStep_length, chunks_length, chunks_length]
  · intro j
    rw [chunks_getD hUL j]
    simp only [packStep, WORD_SIZE]
    by_cases hstr : 64 < c % 64 + w
    · rw [if_pos hstr]
      simp only [getD_set, List.length_set, chunks_length, chunks_getD hSL]
      by_cases hj1 : c / 64 + 1 = j
      · rw [if_pos ⟨hj1, by omega⟩,
            if_neg (by omega : ¬(c / 64 = c / 64 + 1 ∧ c / 64 < L)), ← hj1]
        exact eqC hstr
      · by_cases hj0 : c / 64 = j
        · rw [if_neg (by omega : ¬(c / 64 + 1 = j ∧ c / 64 + 1 < L)),
              if_pos ⟨hj0, hwiL⟩, ← hj0]
          exact eqB
        · rw [if_neg (by omega : ¬(c / 64 + 1 = j ∧ c / 64 + 1 < L)),
              if_neg (by omega : ¬(c / 64 = j ∧ c / 64 < L))]
          exact eqA j (by omega)
    · rw [if_neg hstr]
      simp only [getD_set, List.length_set, chunks_length, chunks_getD hSL]
      by_cases hj0 : c / 64 = j
      · rw [if_pos ⟨hj0, hwiL⟩, ← hj0]
        exact eqB
      · rw [if_neg (by omega : ¬(c / 64 = j ∧ c / 64 < L))]
        exact eqA j (by omega)

theorem packLoop_chunks {w : Nat} (hw1 : 1 ≤ w) (hw64 : w ≤ 64) :
    ∀ (vs : List Nat) (c S L : Nat), (∀ v ∈ vs, v < 2 ^ w) → S < 2 ^ c →
      c + vs.length * w ≤ 64 * L →
      packLoop vs w c (chunks L S) = chunks L (S + packSum vs w * 2 ^ c) := by
  intro vs
  induction vs with
  | nil =>
    intro c S L _ _ _
    simp [packLoop, packSum]
  | cons v vs ih =>
    intro c S L hmem hS hle
    have hlen : (v :: vs).length * w = vs.length * w + w := by
      rw [List.length_cons]
      ring
    have hv : v < 2 ^ w := hmem v (by simp)
    rw [packLoop, packStep_chunks hw1 hw64 hS hv (by omega),
        ih (c + w) (S + v * 2 ^ c) L (fun x hx => hmem x (by simp [hx]))
          (add_shift_lt hS hv) (by omega)]
    congr 1
    rw [packSum, pow_add]
    ring

theorem pack_eq_chunks {values : List Nat} {w : Nat} (hw1 : 1 ≤ w) (hw64 : w ≤ WORD_SIZE)
    (hvals : ∀ v ∈ values, v < 2 ^ w) :
    pack values w = .ok (chunks (wordCount values.length w) (packSum values w)) := by
  have hno : values.any (fun v => decide (2 ^ w ≤ v)) ≠ true := by
    intro hcontr
    rw [List.any_eq_true] at hcontr
    obtain ⟨v, hv, hle⟩ := hcontr
    rw [decide_eq_true_eq] at hle
    exact absurd hle (Nat.not_le.mpr (hvals v hv))
  have hw64' : w ≤ 64 := hw64
  have hb : 0 + values.length * w ≤ 64 * wordCount values.length w := by
    simp only [wordCount, WORD_SIZE]
    omega
  unfold pack
  rw [if_neg (by simp only [WORD_SIZE]; omega : ¬ WORD_SIZE < w),
      if_neg hno, if_neg (by omega : ¬ w = 0)]
  have hinit := packLoop_chunks hw1 hw64' values 0 0
      (wordCount values.length w) hvals (by norm_num) hb
  rw [chunks_zero] at hinit
  rw [hinit]
  simp

theorem unpackValue_chunks {L S w : Nat} (hw1 : 1 ≤ w) (hw64 : w ≤ 64)
    (hS : S < 2 ^ (64 * L)) (i : Nat) :
    unpackValue (chunks L S) w i = S / 2 ^ (i * w) % 2 ^ w := by
  have hoff : i * w % 64 < 64 := Nat.mod_lt _ (by norm_num)
  have hc : 64 * (i * w / 64) + i * w % 64 = i * w := Nat.div_add_mod (i * w) 64
  have hF1 : (S / 2 ^ (64 * (i * w / 64)) % 2 ^ 64) >>> (i * w % 64)
      = S / 2 ^ (i * w) % 2 ^ (64 - i * w % 64) := by
    rw [Nat.shiftRight_eq_div_pow]
    have e1 : (2:ℕ) ^ 64 = 2 ^ (i * w % 64) * 2 ^ (64 - i * w % 64) := by
      rw [← pow_add]
      congr 1
      omega
    rw [e1, Nat.mod_mul_right_div_self, Nat.div_div_eq_div_mul, ← pow_add, hc]
  simp only [unpackValue, WORD_SIZE]
  simp only [chunks_getD hS]
  rw [hF1]
  by_cases hstr : 64 < i * w % 64 + w
  · have hwne : ¬ (w = 64) := by
      intro hweq
      rw [hweq] at hstr
      omega
    rw [if_pos hstr, if_neg hwne]
    have hX : S / 2 ^ (64 * (i * w / 64 + 1)) = S / 2 ^ (i * w) / 2 ^ (64 - i * w % 64) := by
      rw [Nat.div_div_eq_div_mul, ← pow_add]
      congr 2
      omega
    have hshift : ((S / 2 ^ (64 * (i * w / 64 + 1)) % 2 ^ 64) <<< (64 - i * w % 64)) % 2 ^ 64
        = (S / 2 ^ (i * w) / 2 ^ (64 - i * w % 64) % 2 ^ (i * w % 64))
            * 2 ^ (64 - i * w % 64) := by
      rw [Nat.shiftLeft_eq]
      have e2 : (2:ℕ) ^ 64 = 2 ^ (i * w % 64) * 2 ^ (64 - i * w % 64) := by
        rw [← pow_add]
        congr 1
        omega
      rw [e2, Nat.mul_mod_mul_right, Nat.mod_mod_of_dvd _ (dvd_mul_right _ _), hX]
    have hcomb : S / 2 ^ (i * w) % 2 ^ (64 - i * w % 64) |||
        ((S / 2 ^ (64 * (i * w / 64 + 1)) % 2 ^ 64) <<< (64 - i * w % 64)) % 2 ^ 64
        = S / 2 ^ (i * w) % 2 ^ 64 := by
      rw [hshift,
          Nat.mul_comm (S / 2 ^ (i * w) / 2 ^ (64 - i * w % 64) % 2 ^ (i * w % 64))
            (2 ^ (64 - i * w % 64)),
          lor_eq_add_of_lt _ (Nat.mod_lt _ (Nat.two_pow_pos _)),
          ← mod_mul_decomp, ← pow_add]
      congr 2
      omega
    rw [hcomb, Nat.one_shiftLeft, Nat.and_pow_two_sub_one_eq_mod,
        Nat.mod_mod_of_dvd _ (pow_dvd_pow 2 hw64)]
  · rw [if_neg hstr]
    by_cases hweq : w = 64
    · rw [if_pos hweq]
      subst hweq
      have hz : i * 64 % 64 = 0 := by omega
      rw [hz]
    · rw [if_neg hweq, Nat.one_shiftLeft, Nat.and_pow_two_sub_one_eq_mod,
          Nat.mod_mod_of_dvd _ (pow_dvd_pow 2 (by omega : w ≤ 64 - i * w % 64))]

theorem unpack_chunks {S w n L : Nat} (hw1 : 1 ≤ w) (hw64 : w ≤ 64)
    (hS : S < 2 ^ (64 * L)) (hL : L = wordCount n w) :
    unpack (chunks L S) w n
      = .ok ((List.range n).map (fun i => S / 2 ^ (i * w) % 2 ^ w)) := by
  unfold unpack
  rw [if_neg (by simp only [WORD_SIZE]; omega : ¬ WORD_SIZE < w),
      if_neg (by simp [chunks_length, hL] : ¬ (chunks L S).length ≠ wordCount n w),
      if_neg (by omega : ¬ w = 0)]
  congr 1
  apply List.map_congr_left
  intro i _
  exact unpackValue_chunks hw1 hw64 hS i

/-- Round-trip at any valid width: unpacking the packed buffer with the same
width and count yields the original block. -/
theorem roundtrip {values : List Nat} {w : Nat} (hw : w ≤ WORD_SIZE)
    (hvals : ∀ v ∈ values, v < 2 ^ w) :
    (pack values w).bind (fun ws => unpack ws w values.length) = .ok values := by
  by_cases hw0 : w = 0
  · subst hw0
    have hz : ∀ v ∈ values, v = 0 := by
      intro v hv
      have hv1 := hvals v hv
      simpa [Nat.lt_one_iff] using hv1
    have hno : values.any (fun v => decide (2 ^ 0 ≤ v)) ≠ true := by
      intro hcontr
      rw [List.any_eq_true] at hcontr
      obtain ⟨v, hv, hle⟩ := hcontr
      rw [decide_eq_true_eq] at hle
      rw [hz v hv] at hle
      simp at hle
    have hpack : pack values 0 = .ok [] := by
      unfold pack
      rw [if_neg (by simp [WORD_SIZE] : ¬ WORD_SIZE < 0), if_neg hno, if_pos rfl]
    rw [hpack]
    simp only [CResult.bind]
    unfold unpack
    rw [if_neg (by simp [WORD_SIZE] : ¬ WORD_SIZE < 0),
        if_neg (by simp only [List.length_nil, wordCount, WORD_SIZE]; omega :
          ¬ (List.length ([] : List Nat) ≠ wordCount values.length 0)),
        if_pos rfl]
    congr 1
    exact (List.eq_replicate_of_mem hz).symm
  · have hw1 : 1 ≤ w := by omega
    rw [pack_eq_chunks hw1 hw hvals]
    simp only [CResult.bind]
    have hSlt : packSum values w < 2 ^ (64 * wordCount values.length w) := by
      refine lt_of_lt_of_le (packSum_lt hvals) (Nat.pow_le_pow_right (by norm_num) ?_)
      simp only [wordCount, WORD_SIZE]
      omega
    rw [unpack_chunks hw1 hw hSlt rfl]
    congr 1
    calc (List.range values.length).map (fun i => packSum values w / 2 ^ (i * w) % 2 ^ w)
        = (List.range values.length).map (fun i => values.getD i 0) := by
          apply List.map_congr_left
          intro i hi
          exact packSum_extract hvals i (List.mem_range.mp hi)
      _ = values := getD_map_range values

/-! Width selection helper lemmas. -/

theorem le_foldr_max (l : List Nat) : ∀ v ∈ l, v ≤ l.foldr max 0 := by
  induction l with
  | nil =>
    intro v hv
    simp at hv
  | cons x xs ih =>
    intro v hv
    rcases List.mem_cons.mp hv with h | h
    · subst h
      exact Nat.le_max_left _ _
    · exact le_trans (ih v h) (Nat.le_max_right _ _)

theorem foldr_max_mem (l : List Nat) (hne : l ≠ []) : l.foldr max 0 ∈ l := by
  induction l with
  | nil => exact absurd rfl hne
  | cons x xs ih =>
    by_cases hxs : xs = []
    · subst hxs
      simp
    · rw [List.foldr_cons]
      rcases Nat.le_total x (xs.foldr max 0) with h | h
      · rw [Nat.max_eq_right h]
        exact List.mem_cons_of_mem _ (ih hxs)
      · rw [Nat.max_eq_left h]
        exact List.mem_cons_self _ _

theorem lt_two_pow_bit_length (v : Nat) : v < 2 ^ bit_length v := by
  unfold bit_length
  by_cases hv : v = 0
  · simp [hv]
  · rw [if_neg hv]
    exact (Nat.log2_lt hv).mp (Nat.lt_succ_self _)

theorem two_pow_pred_bit_length_le {v : Nat} (hv : v ≠ 0) :
    2 ^ (bit_length v - 1) ≤ v := by
  unfold bit_length
  rw [if_neg hv, Nat.add_sub_cancel]
  exact Nat.log2_self_le hv

/-! Claim theorems. -/

/-- C1: Round-trip — for every count N, every bit width W in `[0, WORD_SIZE]`,
and every block of N values each strictly below `2 ^ W`, unpacking the result
of packing the block with width W (using the same W and N) yields exactly the
original block, preserving order and every bit pattern. -/
theorem claim1_pack_unpack_roundtrip (values : List Nat) (w : Nat)
    (hw : w ≤ WORD_SIZE) (hvals : ∀ v ∈ values, v < 2 ^ w) :
    (pack values w).bind (fun ws => unpack ws w values.length) = .ok values :=
  roundtrip hw hvals

/-- Witness for C1: the boundary-straddling block of thirteen values 31 packed
at width 5. -/
theorem claim1_pack_unpack_roundtrip_witness :
    (5 ≤ WORD_SIZE ∧ ∀ v ∈ List.replicate 13 31, v < 2 ^ 5) ∧
    (pack (List.replicate 13 31) 5).bind
      (fun ws => unpack ws 5 (List.replicate 13 31).length)
      = .ok (List.replicate 13 31) :=
  ⟨⟨by decide, by decide⟩,
    claim1_pack_unpack_roundtrip (List.replicate 13 31) 5 (by decide) (by decide)⟩

/-- C2: Concrete scenario — packing `[3, 15, 0, 7, 1, 12, 4, 9]` at W = 4 with
N = 8 produces the single packed word
`3 ||| 15<<4 ||| 0<<8 ||| 7<<12 ||| 1<<16 ||| 12<<20 ||| 4<<24 ||| 9<<28`,
unpacking that word with (W = 4, N = 8) recovers the eight values exactly,
`select_width` of the block is 4, and the source demo loops compute the same
packed word and round trip. -/
theorem claim2_concrete_scenario :
    pack demoValues demoBitWidth
      = .ok [3 ||| 15 <<< 4 ||| 0 <<< 8 ||| 7 <<< 12 ||| 1 <<< 16 ||| 12 <<< 20
              ||| 4 <<< 24 ||| 9 <<< 28] ∧
    unpack [3 ||| 15 <<< 4 ||| 0 <<< 8 ||| 7 <<< 12 ||| 1 <<< 16 ||| 12 <<< 20
            ||| 4 <<< 24 ||| 9 <<< 28] demoBitWidth 8 = .ok demoValues ∧
    select_width demoValues = 4 ∧
    demoPacked = 3 ||| 15 <<< 4 ||| 0 <<< 8 ||| 7 <<< 12 ||| 1 <<< 16 ||| 12 <<< 20
      ||| 4 <<< 24 ||| 9 <<< 28 ∧
    demoUnpacked = demoValues :=
  ⟨by decide, by decide, by norm_num [select_width, bit_length, demoValues, Nat.log2],
    by decide, by decide⟩

/-- C3: Pack bit placement — for every block and width satisfying the
precondition, the packed buffer read as one bit string is exactly
`Σ values[i] * 2 ^ (i * W)`; in particular the field of the i-th value sits at
global bit cursor `i * W`, and extracting W bits there recovers the value. -/
theorem claim3_pack_bit_placement (values : List Nat) (w : Nat)
    (hw : w ≤ WORD_SIZE) (hvals : ∀ v ∈ values, v < 2 ^ w) (ws : List Nat)
    (hpack : pack values w = .ok ws) :
    wordsVal ws = packSum values w ∧
    ∀ i, i < values.length → wordsVal ws / 2 ^ (i * w) % 2 ^ w = values.getD i 0 := by
  by_cases hw0 : w = 0
  · subst hw0
    have hz : ∀ v ∈ values, v = 0 := by
      intro v hv
      have hv1 := hvals v hv
      simpa [Nat.lt_one_iff] using hv1
    have hno : values.any (fun v => decide (2 ^ 0 ≤ v)) ≠ true := by
      intro hcontr
      rw [List.any_eq_true] at hcontr
      obtain ⟨v, hv, hle⟩ := hcontr
      rw [decide_eq_true_eq] at hle
      rw [hz v hv] at hle
      simp at hle
    have hpack0 : pack values 0 = .ok [] := by
      unfold pack
      rw [if_neg (by simp [WORD_SIZE] : ¬ WORD_SIZE < 0), if_neg hno, if_pos rfl]
    rw [hpack0] at hpack
    cases hpack
    have hps : packSum values 0 = 0 := by
      have h1 := packSum_lt hvals
      simpa using h1
    refine ⟨by simp [wordsVal, hps], ?_⟩
    intro i hi
    rw [hz (values.getD i 0) (by rw [getD_eq_getElem hi]; exact List.getElem_mem hi)]
    simp [wordsVal]
  · have hw1 : 1 ≤ w := by omega
    rw [pack_eq_chunks hw1 hw hvals] at hpack
    cases hpack
    have hw64 : w ≤ 64 := hw
    have hSlt : packSum values w < 2 ^ (64 * wordCount values.length w) := by
      refine lt_of_lt_of_le (packSum_lt hvals) (Nat.pow_le_pow_right (by norm_num) ?_)
      simp only [wordCount, WORD_SIZE]
      omega
    rw [wordsVal_chunks hSlt]
    exact ⟨rfl, fun i hi => packSum_extract hvals i hi⟩

/-- Witness for C3 on the demo block at width 4. -/
theorem claim3_pack_bit_placement_witness :
    ((4 ≤ WORD_SIZE ∧ ∀ v ∈ demoValues, v < 2 ^ 4)
      ∧ pack demoValues 4 = .ok [2495705331]) ∧
    wordsVal [2495705331] = packSum demoValues 4 ∧
    wordsVal [2495705331] / 2 ^ (2 * 4) % 2 ^ 4 = demoValues.getD 2 0 :=
  ⟨⟨⟨by decide, by decide⟩, by decide⟩,
    (claim3_pack_bit_placement demoValues 4 (by decide) (by decide)
        [2495705331] (by decide)).1,
    (claim3_pack_bit_placement demoValues 4 (by decide) (by decide)
        [2495705331] (by decide)).2 2 (by decide)⟩

/-- C4: Overflow rejection — a block containing a value that does not fit in
the declared width W (some value at least `2 ^ W`, with W below the value
width) is rejected by pack with BitWidthOverflow, and no packing occurs. -/
theorem claim4_overflow_rejection (values : List Nat) (w : Nat)
    (hw : w < WORD_SIZE) (hex : ∃ v ∈ values, 2 ^ w ≤ v) :
    pack values w = .error .BitWidthOverflow := by
  obtain ⟨v, hv, hle⟩ := hex
  unfold pack
  rw [if_neg (by simp only [WORD_SIZE] at hw ⊢; omega : ¬ WORD_SIZE < w),
      if_pos (List.any_eq_true.mpr ⟨v, hv, decide_eq_true hle⟩)]

/-- Witness for C4: packing `[16]` at width 4 fails with BitWidthOverflow. -/
theorem claim4_overflow_rejection_witness :
    (4 < WORD_SIZE ∧ ∃ v ∈ [16], 2 ^ 4 ≤ v) ∧
    pack [16] 4 = .error .BitWidthOverflow :=
  ⟨⟨by decide, by decide⟩, claim4_overflow_rejection [16] 4 (by decide) (by decide)⟩

/-- C5: Malformed buffer rejection — whenever the supplied word count differs
from `ceil(N * W / WORD_SIZE)`, unpack fails with MalformedBuffer before any
read and produces no result. -/
theorem claim5_malformed_buffer (ws : List Nat) (w n : Nat) (hw : w ≤ WORD_SIZE)
    (hlen : ws.length ≠ wordCount n w) :
    unpack ws w n = .error .MalformedBuffer := by
  unfold unpack
  rw [if_neg (by simp only [WORD_SIZE] at hw ⊢; omega : ¬ WORD_SIZE < w), if_pos hlen]

/-- Witness for C5: one word fewer than the two words `ceil(13 * 5 / 64)`
requires is rejected. -/
theorem claim5_malformed_buffer_witness :
    (5 ≤ WORD_SIZE ∧ List.length [0] ≠ wordCount 13 5) ∧
    unpack [0] 5 13 = .error .MalformedBuffer :=
  ⟨⟨by decide, by decide⟩, claim5_malformed_buffer [0] 5 13 (by decide) (by decide)⟩

/-- C6: Output size invariant — a successful pack produces exactly
`ceil(N * W / WORD_SIZE)` words; at W = 0 pack of an all-zero block produces
zero words and unpack of the empty buffer produces N zeros. -/
theorem claim6_output_size (values : List Nat) (w n : Nat) (ws : List Nat)
    (hpack : pack values w = .ok ws) :
    ws.length = wordCount values.length w ∧
    pack (List.replicate n 0) 0 = .ok [] ∧
    unpack ([] : List Nat) 0 n = .ok (List.replicate n 0) := by
  refine ⟨?_, ?_, ?_⟩
  · unfold pack at hpack
    split at hpack
    · exact (CResult.noConfusion hpack)
    · split at hpack
      · exact (CResult.noConfusion hpack)
      · split at hpack
        · cases hpack
          rename_i hw0 -- the w = 0 hypothesis
          simp [hw0, wordCount, WORD_SIZE]
        · cases hpack
          rw [packLoop_length, List.length_replicate]
  · have hno : (List.replicate n 0).any (fun v => decide (2 ^ 0 ≤ v)) ≠ true := by
      intro hcontr
      rw [List.any_eq_true] at hcontr
      obtain ⟨v, hv, hle⟩ := hcontr
      rw [decide_eq_true_eq] at hle
      rw [List.eq_of_mem_replicate hv] at hle
      simp at hle
    unfold pack
    rw [if_neg (by simp [WORD_SIZE] : ¬ WORD_SIZE < 0), if_neg hno, if_pos rfl]
  · unfold unpack
    rw [if_neg (by simp [WORD_SIZE] : ¬ WORD_SIZE < 0),
        if_neg (by simp only [List.length_nil, wordCount, WORD_SIZE]; omega :
          ¬ (List.length ([] : List Nat) ≠ wordCount n 0)),
        if_pos rfl]

/-- Witness for C6 on the block `[1, 2, 3]` at width 10, one packed word. -/
theorem claim6_output_size_witness :
    pack [1, 2, 3] 10 = .ok [3147777] ∧
    (List.length [3147777] = wordCount (List.length [1, 2, 3]) 10 ∧
      pack (List.replicate 5 0) 0 = .ok [] ∧
      unpack ([] : List Nat) 0 5 = .ok (List.replicate 5 0)) :=
  ⟨by decide, claim6_output_size [1, 2, 3] 10 5 [3147777] (by decide)⟩

/-- C7: Width minimality — for a non-empty block, `select_width` is the bit
length of the block maximum; every value fits below `2 ^ W`, and either W is
zero or the maximum needs all W bits. -/
theorem claim7_width_minimality (values : List Nat) (hne : values ≠ []) :
    select_width values = bit_length (values.foldr max 0) ∧
    values.foldr max 0 ∈ values ∧
    (∀ v ∈ values, v < 2 ^ select_width values) ∧
    (select_width values = 0 ∨ 2 ^ (select_width values - 1) ≤ values.foldr max 0) := by
  refine ⟨rfl, foldr_max_mem values hne, ?_, ?_⟩
  · intro v hv
    exact lt_of_le_of_lt (le_foldr_max values v hv)
      (lt_two_pow_bit_length (values.foldr max 0))
  · by_cases hM : values.foldr max 0 = 0
    · left
      show bit_length (values.foldr max 0) = 0
      rw [hM]
      rfl
    · right
      show 2 ^ (bit_length (values.foldr max 0) - 1) ≤ values.foldr max 0
      exact two_pow_pred_bit_length_le hM

/-- Witness for C7 on the demo block: width 4 is tight for maximum 15. -/
theorem claim7_width_minimality_witness :
    demoValues ≠ [] ∧
    (select_width demoValues = bit_length (demoValues.foldr max 0) ∧
      demoValues.foldr max 0 ∈ demoValues ∧
      (∀ v ∈ demoValues, v < 2 ^ select_width demoValues) ∧
      (select_width demoValues = 0 ∨
        2 ^ (select_width demoValues - 1) ≤ demoValues.foldr max 0)) :=
  ⟨by decide, claim7_width_minimality demoValues (by decide)⟩

/-- C8: Full-width safety — at W = WORD_SIZE, pack followed by unpack is a
faithful copy of any `u64` values, and unpack's extraction at full width is
the dedicated no-mask branch returning the whole word. -/
theorem claim8_full_width (values : List Nat)
    (hvals : ∀ v ∈ values, v < 2 ^ WORD_SIZE) :
    (pack values WORD_SIZE).bind
      (fun ws => unpack ws WORD_SIZE values.length) = .ok values ∧
    ∀ (ws : List Nat) (i : Nat), unpackValue ws WORD_SIZE i = ws.getD i 0 := by
  refine ⟨roundtrip (le_refl _) hvals, ?_⟩
  intro ws i
  simp only [unpackValue, WORD_SIZE, if_true]
  have hoff : i * 64 % 64 = 0 := by omega
  rw [hoff, if_neg (by norm_num : ¬ (64:ℕ) < 0 + 64)]
  have hwi : i * 64 / 64 = i := by omega
  rw [hwi, Nat.shiftRight_zero]

/-- Witness for C8: three 64-bit values, among them the all-ones word. -/
theorem claim8_full_width_witness :
    (∀ v ∈ [18446744073709551615, 0, 9876543210], v < 2 ^ WORD_SIZE) ∧
    ((pack [18446744073709551615, 0, 9876543210] WORD_SIZE).bind
        (fun ws => unpack ws WORD_SIZE
          (List.length [18446744073709551615, 0, 9876543210]))
        = .ok [18446744073709551615, 0, 9876543210] ∧
      ∀ (ws : List Nat) (i : Nat), unpackValue ws WORD_SIZE i = ws.getD i 0) :=
  ⟨by decide, claim8_full_width [18446744073709551615, 0, 9876543210] (by decide)⟩

/-- C9 (amended): Implicit inverse round-trip — when `N * W = WORD_SIZE`
(for example N = 16, W = 4), packing the block obtained by unpacking a single
word reproduces that word exactly. The claim's cited instance N = 8, W = 4 has
`N * W = 32 ≠ WORD_SIZE` and fails on words with bits at or above position 32;
see the counterexample below. -/
theorem claim9_unpack_pack_inverse (n w word : Nat) (hnw : n * w = WORD_SIZE)
    (hword : word < 2 ^ WORD_SIZE) :
    (unpack [word] w n).bind (fun vs => pack vs w) = .ok [word] := by
  have hnw' : n * w = 64 := hnw
  have hword' : word < 2 ^ 64 := hword
  have hwordL : word < 2 ^ (64 * 1) := hword'
  have hw1 : 1 ≤ w := by
    rcases Nat.eq_zero_or_pos w with hw0 | hpos
    · rw [hw0, Nat.mul_zero] at hnw'
      omega
    · exact hpos
  have hn1 : 1 ≤ n := by
    rcases Nat.eq_zero_or_pos n with hn0 | hpos
    · rw [hn0, Nat.zero_mul] at hnw'
      omega
    · exact hpos
  have hw64 : w ≤ 64 := by
    have hle := Nat.le_mul_of_pos_left w hn1
    omega
  have hchunk : chunks 1 word = [word] := by
    show word % 2 ^ 64 :: chunks 0 (word / 2 ^ 64) = [word]
    rw [Nat.mod_eq_of_lt hword']
    rfl
  have hL : (1:Nat) = wordCount n w := by
    simp only [wordCount, WORD_SIZE, hnw']
  rw [← hchunk, unpack_chunks hw1 hw64 hwordL hL]
  simp only [CResult.bind]
  have hvals : ∀ v ∈ (List.range n).map (fun i => word / 2 ^ (i * w) % 2 ^ w),
      v < 2 ^ w := by
    intro v hv
    rw [List.mem_map] at hv
    obtain ⟨i, _, rfl⟩ := hv
    exact Nat.mod_lt _ (Nat.two_pow_pos w)
  rw [pack_eq_chunks hw1 hw64 hvals]
  congr 1
  rw [List.length_map, List.length_range, ← hL, packSum_reconstruct, hnw',
      Nat.mod_eq_of_lt hword']

/-- Witness for C9 (amended): the demo word `0x94C170F3` at N = 16, W = 4,
where `N * W = WORD_SIZE` does hold. -/
theorem claim9_unpack_pack_inverse_witness :
    (16 * 4 = WORD_SIZE ∧ 2495705331 < 2 ^ WORD_SIZE) ∧
    (unpack [2495705331] 4 16).bind (fun vs => pack vs 4) = .ok [2495705331] :=
  ⟨⟨by decide, by decide⟩,
    claim9_unpack_pack_inverse 16 4 2495705331 (by decide) (by decide)⟩

/-- Counterexample for C9 as stated: in the implemented case N = 8, W = 4 one
has `N * W = 32 ≠ WORD_SIZE`, and the word `2 ^ 32` does not survive
unpack-then-pack with (W = 4, N = 8): the result is the zero word. -/
theorem claim9_counterexample :
    8 * 4 ≠ WORD_SIZE ∧
    (unpack [4294967296] 4 8).bind (fun vs => pack vs 4) = .ok [0] ∧
    CResult.ok ([0] : List Nat) ≠ CResult.ok [4294967296] := by
  refine ⟨by decide, by decide, by decide⟩

/-- C10: Implicit unpack range invariant — for every input word sequence and
every width below WORD_SIZE, each value produced by a successful unpack is
strictly below `2 ^ W`, whatever bits the packed words contain. -/
theorem claim10_unpack_range (ws : List Nat) (w n : Nat) (hw : w < WORD_SIZE)
    (vs : List Nat) (hunp : unpack ws w n = .ok vs) :
    ∀ v ∈ vs, v < 2 ^ w := by
  unfold unpack at hunp
  rw [if_neg (by simp only [WORD_SIZE] at hw ⊢; omega : ¬ WORD_SIZE < w)] at hunp
  by_cases hlen : ws.length ≠ wordCount n w
  · rw [if_pos hlen] at hunp
    exact (CResult.noConfusion hunp)
  · rw [if_neg hlen] at hunp
    by_cases hw0 : w = 0
    · rw [if_pos hw0] at hunp
      cases hunp
      intro v hv
      rw [List.eq_of_mem_replicate hv, hw0]
      simp
    · rw [if_neg hw0] at hunp
      cases hunp
      intro v hv
      rw [List.mem_map] at hv
      obtain ⟨i, _, rfl⟩ := hv
      simp only [unpackValue, WORD_SIZE]
      rw [if_neg (by simp only [WORD_SIZE] at hw; omega : ¬ w = 64),
          Nat.one_shiftLeft, Nat.and_pow_two_sub_one_eq_mod]
      exact Nat.mod_lt _ (Nat.two_pow_pos w)

/-- Witness for C10: unpacking the all-ones word at width 4 yields sixteen
values 15, each below `2 ^ 4`. -/
theorem claim10_unpack_range_witness :
    (4 < WORD_SIZE ∧ unpack [18446744073709551615] 4 16
        = .ok (List.replicate 16 15)) ∧
    15 < 2 ^ 4 :=
  ⟨⟨by decide, by decide⟩,
    claim10_unpack_range [18446744073709551615] 4 16 (by decide)
      (List.replicate 16 15) (by decide) 15 (by decide)⟩

end BitPacking
